import Mathlib

/-!
Verification of the result-assembly layer of zoekt-underhood (`web/server.go`).

The Go code is shallowly embedded: Go byte strings (`[]byte`, checksums, raw
line content) become `Bytes := List Nat`; Go `string` values used for repository
names, paths and tickets become Lean `String`; Go maps that are only ever read
through lookup / insert-if-absent / update become association lists; the
per-request loops become structural recursions or folds over the input lists.
External collaborators (the zoekt backend, Go's standard library sort) are
modelled by their documented contracts: `sort.SliceStable` is modelled as a
stable insertion sort parameterised by the exact comparator from the source,
and the sha1 digest used only as a grouping key is modelled by the (injective)
concatenation of the hashed bytes.
-/

set_option maxHeartbeats 1000000

namespace ZoektUnderhood

/-- Go byte strings (`[]byte` and `string` used as byte containers). -/
abbrev Bytes := List Nat

/-- CodeMirror point, `CmPoint` in server.go. -/
structure CmPoint where
  line : Int
  ch : Int
deriving DecidableEq, Repr

/-- CodeMirror range, `CmRange` in server.go. -/
structure CmRange where
  From : CmPoint
  To : CmPoint
deriving DecidableEq, Repr

/-- `UhSnippet` in server.go; `Text` holds the raw bytes of the
(possibly clipped) matched line. -/
structure UhSnippet where
  Text : Bytes
  FullSpan : CmRange
  OccurrenceSpan : CmRange
deriving DecidableEq, Repr

/-- `UhDisplayedFile` in server.go. -/
structure UhDisplayedFile where
  FileTicket : String
  DisplayName : String
deriving DecidableEq, Repr

/-- `UhFileSites` in server.go. -/
structure UhFileSites where
  ContainingFile : UhDisplayedFile
  IsDupOf : Option UhDisplayedFile
  Snippets : List UhSnippet
deriving DecidableEq, Repr

/-- `UhSiteGroup` in server.go. -/
structure UhSiteGroup where
  Files : List UhFileSites
deriving DecidableEq, Repr

/-- `fileSites` in server.go: the internal per-file record before grouping. -/
structure fileSites where
  containingFile : UhDisplayedFile
  snippets : List UhSnippet
  fileChecksum : Bytes
  snippetsHash : Bytes
deriving DecidableEq, Repr

/-- `groupResult` in server.go. -/
structure groupResult where
  snipCnt : Nat
  fileCnt : Nat
  fileDupCnt : Nat
  matchDupCnt : Nat
  groups : List UhSiteGroup
deriving DecidableEq, Repr

/-- `ticket` in server.go. -/
structure ticket where
  repo : String
  path : String
deriving DecidableEq, Repr

/-- `FileTree` in server.go.  `Children = none` models the JSON `nil`
("unknown, fetch lazily"). -/
structure FileTree where
  KytheUri : String
  Display : String
  OnlyGenerated : Bool
  IsFile : Bool
  Children : Option (List FileTree)

/-- One fragment match within a line (zoekt `LineFragmentMatch`),
as consumed by server.go. -/
structure LineFragmentMatch where
  LineOffset : Nat
  MatchLength : Nat
deriving DecidableEq, Repr

/-- One matched line (zoekt `LineMatch`), as consumed by server.go. -/
structure LineMatch where
  Line : Bytes
  LineStart : Nat
  LineEnd : Nat
  LineNumber : Nat
  LineFragments : List LineFragmentMatch
deriving DecidableEq, Repr

/-- One matched file (zoekt `FileMatch`), as consumed by server.go. -/
structure FileMatch where
  Repository : String
  FileName : String
  Content : Bytes
  Checksum : Bytes
  LineMatches : List LineMatch
deriving DecidableEq, Repr

/-! ## Ticket addressing (`parseTicket`, `ticket.complete`) -/

/-- Split a character list at its first colon, the semantics of Go's
`strings.SplitN(t, ":", 2)`: `none` when no colon occurs. -/
def splitFirstColon : List Char → Option (List Char × List Char)
  | [] => none
  | c :: cs =>
    if c = ':' then some ([], cs)
    else
      match splitFirstColon cs with
      | some (a, b) => some (c :: a, b)
      | none => none

/-- `parseTicket` in server.go: split on the first colon; any field missing
stays empty; never errors (the Go error result is always nil). -/
def parseTicket (t : String) : ticket :=
  match splitFirstColon t.toList with
  | none => { repo := t, path := "" }
  | some (a, b) => { repo := String.mk a, path := String.mk b }

/-- `(*ticket).complete` in server.go. -/
def ticketComplete (t : ticket) : Bool :=
  t.repo != "" && t.path != ""

/-- The canonical textual form of a ticket, `repo + ":" + path`
(as produced throughout server.go, e.g. for `FileTicket` and `KytheUri`). -/
def formatTicket (t : ticket) : String :=
  t.repo ++ ":" ++ t.path

theorem splitFirstColon_append (r p : List Char) (hr : (':' : Char) ∉ r) :
    splitFirstColon (r ++ ':' :: p) = some (r, p) := by
  induction r with
  | nil => simp [splitFirstColon]
  | cons c cs ih =>
    have hc : c ≠ ':' := by
      intro h; exact hr (by simp [h])
    have hcs : (':' : Char) ∉ cs := by
      intro h; exact hr (by simp [h])
    simp [splitFirstColon, hc, ih hcs]

/-- C7: for every complete, colon-free ticket, parsing the canonical textual
form gives the ticket back. -/
theorem parseTicket_formatTicket (t : ticket) (hc : ticketComplete t = true)
    (hr : (':' : Char) ∉ t.repo.toList) (hp : (':' : Char) ∉ t.path.toList) :
    parseTicket (formatTicket t) = t := by
  have hdata : (formatTicket t).toList = t.repo.toList ++ ':' :: t.path.toList := by
    show (t.repo ++ ":" ++ t.path).data = t.repo.data ++ ':' :: t.path.data
    have hcolon : (":" : String).data = [':'] := rfl
    rw [String.data_append, String.data_append, List.append_assoc, hcolon]
    rfl
  unfold parseTicket
  rw [hdata, splitFirstColon_append _ _ hr]
  show ticket.mk (String.mk t.repo.data) (String.mk t.path.data) = t
  rfl

/-- Concrete instance of C7 with every hypothesis discharged. -/
theorem parseTicket_formatTicket_witness :
    ticketComplete ⟨"repo", "dir/file.go"⟩ = true ∧
      parseTicket (formatTicket ⟨"repo", "dir/file.go"⟩) = ⟨"repo", "dir/file.go"⟩ :=
  ⟨by decide, parseTicket_formatTicket ⟨"repo", "dir/file.go"⟩ (by decide) (by decide) (by decide)⟩

/-! ## Snippet building (`appendSearches` in server.go)

The per-file loop of `appendSearches` builds one `fileSites` per returned
file.  Reading `l.LineFragments[0]` on an empty fragment list panics in Go;
the embedding returns `none` there and propagates it, so "the handler
crashes" is modelled as the whole construction returning `none`. -/

/-- The clip marker bytes, `"...line too long, clipped..."` in server.go. -/
def clipMarker : Bytes := "...line too long, clipped...".toList.map Char.toNat

/-- The line-clipping step of `appendSearches`: Go `len`/slicing on a string
counts bytes, so the threshold and the kept prefix/suffix are byte counts. -/
def clipLine (line : Bytes) : Bytes :=
  if line.length > 250 then
    line.take 30 ++ clipMarker ++ line.drop (line.length - 30)
  else line

/-- The body of `appendSearches`'s inner loop: one `UhSnippet` per line match.
`none` models the Go panic on `l.LineFragments[0]` when no fragment exists. -/
def mkSnippet (lm : LineMatch) : Option UhSnippet :=
  match lm.LineFragments with
  | [] => none
  | firstFrag :: _ =>
    let lineNum : Int := (lm.LineNumber : Int) - 1
    some { Text := clipLine lm.Line,
           FullSpan := { From := { line := lineNum, ch := 0 },
                         To := { line := lineNum,
                                 ch := (lm.LineEnd : Int) - (lm.LineStart : Int) } },
           OccurrenceSpan := { From := { line := lineNum,
                                         ch := (firstFrag.LineOffset : Int) },
                               To := { line := lineNum,
                                       ch := (firstFrag.LineOffset : Int) +
                                             (firstFrag.MatchLength : Int) } } }

/-- Fallible map: `none` as soon as one element fails (a Go panic aborts the
whole loop). -/
def mapOpt {α β : Type} (g : α → Option β) : List α → Option (List β)
  | [] => some []
  | a :: l =>
    match g a with
    | none => none
    | some b =>
      match mapOpt g l with
      | none => none
      | some bs => some (b :: bs)

/-- The per-file body of `appendSearches`: ticket construction, the snippet
loop, and the two grouping keys.  The sha1 `snippetsHash` (a digest used only
as a map key) is modelled by the concatenation of the hashed line bytes. -/
def buildFileSites (f : FileMatch) : Option fileSites :=
  match mapOpt mkSnippet f.LineMatches with
  | none => none
  | some snippets =>
    some { containingFile := { FileTicket := f.Repository ++ ":" ++ f.FileName,
                               DisplayName := f.Repository ++ ":" ++ f.FileName },
           snippets := snippets,
           fileChecksum := f.Checksum,
           snippetsHash := (f.LineMatches.map (fun lm => lm.Line)).flatten }

/-- `appendSearches` restricted to its result-processing loop: the list of
`fileSites` appended for one backend response. -/
def appendSearches (files : List FileMatch) : Option (List fileSites) :=
  mapOpt buildFileSites files

/-- C8: a line of more than 250 bytes is clipped to its first 30 bytes, the
clip marker, and its last 30 bytes; a line of at most 250 bytes is kept
verbatim; both spans are computed from the unclipped line data and are the
same whether or not the text was clipped. -/
theorem mkSnippet_clip (lm : LineMatch) (f : LineFragmentMatch)
    (fr : List LineFragmentMatch) (hfrag : lm.LineFragments = f :: fr) :
    ∃ s, mkSnippet lm = some s
      ∧ (lm.Line.length ≤ 250 → s.Text = lm.Line)
      ∧ (lm.Line.length > 250 →
          s.Text = lm.Line.take 30 ++ clipMarker ++ lm.Line.drop (lm.Line.length - 30))
      ∧ s.FullSpan = { From := { line := (lm.LineNumber : Int) - 1, ch := 0 },
                       To := { line := (lm.LineNumber : Int) - 1,
                               ch := (lm.LineEnd : Int) - (lm.LineStart : Int) } }
      ∧ s.OccurrenceSpan = { From := { line := (lm.LineNumber : Int) - 1,
                                       ch := (f.LineOffset : Int) },
                             To := { line := (lm.LineNumber : Int) - 1,
                                     ch := (f.LineOffset : Int) + (f.MatchLength : Int) } } := by
  refine ⟨{ Text := clipLine lm.Line,
            FullSpan := { From := { line := (lm.LineNumber : Int) - 1, ch := 0 },
                          To := { line := (lm.LineNumber : Int) - 1,
                                  ch := (lm.LineEnd : Int) - (lm.LineStart : Int) } },
            OccurrenceSpan := { From := { line := (lm.LineNumber : Int) - 1,
                                          ch := (f.LineOffset : Int) },
                                To := { line := (lm.LineNumber : Int) - 1,
                                        ch := (f.LineOffset : Int) +
                                              (f.MatchLength : Int) } } }, ?_, ?_, ?_, rfl, rfl⟩
  · unfold mkSnippet
    rw [hfrag]
  · intro hle
    simp only [clipLine]
    rw [if_neg (by omega)]
  · intro hgt
    simp only [clipLine]
    rw [if_pos hgt]

/-- A long-line input on which C8's clipping branch fires. -/
def exLongLine : LineMatch :=
  { Line := List.replicate 251 97, LineStart := 100, LineEnd := 351, LineNumber := 3,
    LineFragments := [{ LineOffset := 5, MatchLength := 3 }] }

/-- Concrete instance of C8 with its hypothesis discharged. -/
theorem mkSnippet_clip_witness :
    ∃ s, mkSnippet exLongLine = some s
      ∧ (exLongLine.Line.length ≤ 250 → s.Text = exLongLine.Line)
      ∧ (exLongLine.Line.length > 250 →
          s.Text = exLongLine.Line.take 30 ++ clipMarker ++
            exLongLine.Line.drop (exLongLine.Line.length - 30))
      ∧ s.FullSpan = { From := { line := (exLongLine.LineNumber : Int) - 1, ch := 0 },
                       To := { line := (exLongLine.LineNumber : Int) - 1,
                               ch := (exLongLine.LineEnd : Int) - (exLongLine.LineStart : Int) } }
      ∧ s.OccurrenceSpan = { From := { line := (exLongLine.LineNumber : Int) - 1,
                                       ch := (5 : Int) },
                             To := { line := (exLongLine.LineNumber : Int) - 1,
                                     ch := (5 : Int) + (3 : Int) } } :=
  mkSnippet_clip exLongLine ⟨5, 3⟩ [] rfl

theorem mkSnippet_isSome (lm : LineMatch) (h : lm.LineFragments ≠ []) :
    (mkSnippet lm).isSome = true := by
  unfold mkSnippet
  match hf : lm.LineFragments with
  | [] => exact absurd hf h
  | f :: fr => simp

theorem mapOpt_isSome {α β : Type} (g : α → Option β) (l : List α)
    (h : ∀ a ∈ l, (g a).isSome = true) : (mapOpt g l).isSome = true := by
  induction l with
  | nil => simp [mapOpt]
  | cons a l ih =>
    have ha := h a (by simp)
    have hl := ih (fun x hx => h x (by simp [hx]))
    unfold mapOpt
    match hga : g a with
    | none => rw [hga] at ha; simp at ha
    | some b =>
      match hml : mapOpt g l with
      | none => rw [hml] at hl; simp at hl
      | some bs => simp

theorem buildFileSites_isSome (f : FileMatch)
    (h : ∀ lm ∈ f.LineMatches, lm.LineFragments ≠ []) :
    (buildFileSites f).isSome = true := by
  unfold buildFileSites
  have := mapOpt_isSome mkSnippet f.LineMatches
    (fun lm hlm => mkSnippet_isSome lm (h lm hlm))
  match hml : mapOpt mkSnippet f.LineMatches with
  | none => rw [hml] at this; simp at this
  | some snippets => simp

/-- C10: the snippet builder reads the first fragment of each line match
unconditionally; when every line match carries at least one fragment the
whole construction succeeds, and a line match with an empty fragment list
makes it fail (the modelled Go panic). -/
theorem appendSearches_total (files : List FileMatch)
    (h : ∀ f ∈ files, ∀ lm ∈ f.LineMatches, lm.LineFragments ≠ []) :
    (appendSearches files).isSome = true
      ∧ ∀ lm : LineMatch, lm.LineFragments = [] → mkSnippet lm = none := by
  refine ⟨?_, ?_⟩
  · exact mapOpt_isSome buildFileSites files
      (fun f hf => buildFileSites_isSome f (h f hf))
  · intro lm hlm
    unfold mkSnippet
    rw [hlm]

/-- A line match with one fragment, inside C10's stated domain. -/
def exLineOk : LineMatch :=
  { Line := [97], LineStart := 0, LineEnd := 1, LineNumber := 1,
    LineFragments := [{ LineOffset := 0, MatchLength := 1 }] }

/-- A backend response inside C10's stated domain. -/
def exFileOk : FileMatch :=
  { Repository := "repo", FileName := "a.go", Content := [97, 10],
    Checksum := [1, 2], LineMatches := [exLineOk] }

/-- Concrete instance of C10 with its hypothesis discharged. -/
theorem appendSearches_total_witness :
    (appendSearches [exFileOk]).isSome = true
      ∧ ∀ lm : LineMatch, lm.LineFragments = [] → mkSnippet lm = none :=
  appendSearches_total [exFileOk] (by decide)

/-! ## Declaration classifier (`serveSearchXrefErr` in server.go)

The classifier's pattern is built by splicing the request's raw selection
text into a fixed template (`regexp.MustCompile("^((^" + selection + ...)`),
so the compiled expression depends on the selection.  The per-line pass
copies every matching snippet into a single-snippet site. -/

/-- The argument of `regexp.MustCompile` in `serveSearchXrefErr`, with the
selection spliced in exactly as in the source. -/
def declRegexPattern (selection : String) : String :=
  "^((^" ++ selection ++ "\\s*($|::))|(\\s+[\x7b,]\\s*" ++ selection ++
    "\\s*::)|(data\\s+" ++ selection ++ "\\b)|(\\s+[=|]\\s*" ++ selection ++ "))"

/-- The declaration pass of `serveSearchXrefErr`, parameterised by the
compiled matcher: every matching snippet yields a copy of its site carrying
just that one snippet. -/
def declPass (matchesRe : Bytes → Bool) : List fileSites → List fileSites
  | [] => []
  | fs :: rest =>
    (fs.snippets.filter (fun s => matchesRe s.Text)).map
        (fun s => { fs with snippets := [s] })
      ++ declPass matchesRe rest

/-- C9 counterexample: the classifier's regular expression is not fixed, it
changes with the request's selection text. -/
theorem declRegexPattern_varies : declRegexPattern "a" ≠ declRegexPattern "b" := by
  decide

theorem declRegexPattern_data (s : String) :
    (declRegexPattern s).data =
      "^((^".data ++ (s.data ++ ("\\s*($|::))|(\\s+[\x7b,]\\s*".data ++ (s.data ++
        ("\\s*::)|(data\\s+".data ++ (s.data ++ ("\\b)|(\\s+[=|]\\s*".data ++
          (s.data ++ "))".data))))))) := by
  simp [declRegexPattern, String.data_append, List.append_assoc]

/-- C9 (amended): the pattern determines the selection (it varies injectively
with it), and the declaration pass emits exactly one single-snippet copy of a
site per snippet whose text the compiled matcher accepts. -/
theorem declClassifier_amended :
    (∀ s₁ s₂ : String, declRegexPattern s₁ = declRegexPattern s₂ ↔ s₁ = s₂)
    ∧ ∀ (m : Bytes → Bool) (sites : List fileSites) (x : fileSites),
        x ∈ declPass m sites ↔
          ∃ fs ∈ sites, ∃ sn ∈ fs.snippets, m sn.Text = true ∧
            x = { containingFile := fs.containingFile, snippets := [sn],
                  fileChecksum := fs.fileChecksum, snippetsHash := fs.snippetsHash } := by
  constructor
  · intro s₁ s₂
    constructor
    · intro h
      have hd := congrArg String.data h
      rw [declRegexPattern_data, declRegexPattern_data] at hd
      have hlen := congrArg List.length hd
      simp only [List.length_append] at hlen
      have hlen' : s₁.data.length = s₂.data.length := by omega
      have h1 := List.append_inj (List.append_inj hd rfl).2 hlen'
      have hdata : s₁.data = s₂.data := h1.1
      have : String.mk s₁.data = String.mk s₂.data := congrArg String.mk hdata
      exact this
    · intro h; rw [h]
  · intro m sites x
    induction sites with
    | nil => simp [declPass]
    | cons fs rest ih =>
      simp only [declPass, List.mem_append, List.mem_map, List.mem_filter, ih,
        List.mem_cons]
      constructor
      · rintro (⟨s, ⟨hs, hm⟩, rfl⟩ | ⟨g, hg, sn, hsn, hm, rfl⟩)
        · exact ⟨fs, Or.inl rfl, s, hs, hm, rfl⟩
        · exact ⟨g, Or.inr hg, sn, hsn, hm, rfl⟩
      · rintro ⟨g, hg | hg, sn, hsn, hm, rfl⟩
        · subst hg
          exact Or.inl ⟨sn, ⟨hsn, hm⟩, rfl⟩
        · exact Or.inr ⟨g, hg, sn, hsn, hm, rfl⟩

/-! ## File tree assembly (`serveFileTreeErr` in server.go)

The non-empty-`topRepo` branch: exact-repository post-filter, first path
segment of the path relative to `topPath`, a seen-set keyed by that segment,
then an in-place sort (`sort.Slice` with the directory-before-file,
then-alphabetical comparator).  Go's sorts are modelled by a stable insertion
sort parameterised by the comparator taken verbatim from the source; for
`sort.Slice` this is one valid refinement of its unspecified tie order (here
all keys are distinct anyway), and for `sort.SliceStable` (used later for the
relevance sort) stability is exactly its documented contract. -/

/-- Go `strings.Split(s, "/")`: always at least one part. -/
def splitOnSlash : List Char → List (List Char)
  | [] => [[]]
  | c :: cs =>
    if c = '/' then [] :: splitOnSlash cs
    else
      match splitOnSlash cs with
      | [] => [[c]]
      | p :: ps => (c :: p) :: ps

/-- Go `strings.TrimPrefix(s, pre)`. -/
def trimPrefixL (s pre : List Char) : List Char :=
  if pre.isPrefixOf s then s.drop pre.length else s

/-- The `prefix` local of `serveFileTreeErr`: `topPath + "/"` when a root
path was given. -/
def treePrefix (topPath : String) : String :=
  if topPath ≠ "" then topPath ++ "/" else ""

/-- The `relParts` local of `serveFileTreeErr` for one returned file. -/
def relParts (topPath : String) (f : FileMatch) : List (List Char) :=
  splitOnSlash (trimPrefixL f.FileName.toList (treePrefix topPath).toList)

/-- The `FileTree` node `serveFileTreeErr` appends for one first-seen path
segment (`currentPart` is the head of `relParts`). -/
def mkChild (topPath : String) (f : FileMatch) : FileTree :=
  { KytheUri := f.Repository ++ ":" ++ treePrefix topPath ++
      String.mk ((relParts topPath f).headD []),
    Display := String.mk ((relParts topPath f).headD []),
    OnlyGenerated := false,
    IsFile := (relParts topPath f).length == 1,
    Children := none }

/-- The collection loop of `serveFileTreeErr` (non-empty `topRepo` branch):
exact repository filter, then the seen-set dedup keyed by `currentPart`. -/
def collectChildren (topRepo topPath : String) (seen : List String) :
    List FileMatch → List FileTree
  | [] => []
  | f :: rest =>
    if f.Repository ≠ topRepo then collectChildren topRepo topPath seen rest
    else if (mkChild topPath f).Display ∈ seen then
      collectChildren topRepo topPath seen rest
    else
      mkChild topPath f ::
        collectChildren topRepo topPath ((mkChild topPath f).Display :: seen) rest

/-- Stable insertion: `x` goes in front of the first element not less than
it, so elements comparing equal keep their original order. -/
def insertBy {α : Type} (less : α → α → Bool) (x : α) : List α → List α
  | [] => [x]
  | y :: ys => if less y x then y :: insertBy less x ys else x :: y :: ys

/-- Stable insertion sort; the model of Go's slice sorts with the given
comparator. -/
def sortBy {α : Type} (less : α → α → Bool) : List α → List α
  | [] => []
  | x :: xs => insertBy less x (sortBy less xs)

/-- Go's `<` on strings: bytewise lexicographic comparison, which on UTF-8
data coincides with lexicographic comparison of the character lists. -/
def displayLt (a b : String) : Bool :=
  decide (List.Lex (· < ·) a.toList b.toList)

/-- The comparator passed to `sort.Slice` in `serveFileTreeErr`. -/
def treeLess (a b : FileTree) : Bool :=
  if a.IsFile ≠ b.IsFile then b.IsFile else displayLt a.Display b.Display

/-- The children list served by `serveFileTreeErr` for a non-empty
`topRepo`: collect, then sort. -/
def serveFileTreeChildren (topRepo topPath : String) (files : List FileMatch) :
    List FileTree :=
  sortBy treeLess (collectChildren topRepo topPath [] files)

/-- First occurrence per key, relative to an already-seen key set. -/
def firstsBy {α : Type} (key : α → String) (seen : List String) :
    List α → List α
  | [] => []
  | a :: l =>
    if key a ∈ seen then firstsBy key seen l
    else a :: firstsBy key (key a :: seen) l

/-- The intended order of served children: directories before files, and
alphabetically (`a` at most `b`) within each of the two groups. -/
def treeOrd (a b : FileTree) : Prop :=
  (a.IsFile = false ∧ b.IsFile = true)
    ∨ (a.IsFile = b.IsFile ∧ ¬ List.Lex (· < ·) b.Display.toList a.Display.toList)

theorem splitOnSlash_ne_nil (l : List Char) : splitOnSlash l ≠ [] := by
  induction l with
  | nil => simp [splitOnSlash]
  | cons c cs ih =>
    unfold splitOnSlash
    by_cases h : c = '/'
    · simp [h]
    · rw [if_neg h]
      match hm : splitOnSlash cs with
      | [] => exact absurd hm ih
      | p :: ps => simp

theorem splitOnSlash_length_one (l : List Char) :
    (splitOnSlash l).length = 1 ↔ '/' ∉ l := by
  induction l with
  | nil => simp [splitOnSlash]
  | cons c cs ih =>
    unfold splitOnSlash
    by_cases h : c = '/'
    · subst h
      have h0 : (splitOnSlash cs).length ≠ 0 := by
        simpa [List.length_eq_zero] using splitOnSlash_ne_nil cs
      rw [if_pos rfl]
      constructor
      · intro hlen
        exact absurd hlen (by simp only [List.length_cons]; omega)
      · intro hmem
        exact absurd (List.mem_cons_self _ _) hmem
    · rw [if_neg h]
      match hm : splitOnSlash cs with
      | [] => exact absurd hm (splitOnSlash_ne_nil cs)
      | p :: ps =>
        rw [hm] at ih
        simp only [List.length_cons, List.mem_cons] at ih ⊢
        constructor
        · intro hlen
          intro hor
          rcases hor with hc | hcs
          · exact h hc.symm
          · exact (ih.mp hlen) hcs
        · intro hmem
          exact ih.mpr (fun hcs => hmem (Or.inr hcs))

theorem collectChildren_eq (topRepo topPath : String) (seen : List String)
    (files : List FileMatch) :
    collectChildren topRepo topPath seen files =
      (firstsBy (fun f => (mkChild topPath f).Display) seen
        (files.filter (fun f => f.Repository == topRepo))).map (mkChild topPath) := by
  induction files generalizing seen with
  | nil => simp [collectChildren, firstsBy]
  | cons f rest ih =>
    by_cases hr : f.Repository = topRepo
    · by_cases hs : (mkChild topPath f).Display ∈ seen
      · simp [collectChildren, hr, hs, List.filter_cons, firstsBy, ih]
      · simp [collectChildren, hr, hs, List.filter_cons, firstsBy, ih]
    · simp [collectChildren, hr, List.filter_cons, ih]

theorem insertBy_perm {α : Type} (less : α → α → Bool) (x : α) (l : List α) :
    (insertBy less x l).Perm (x :: l) := by
  induction l with
  | nil => exact List.Perm.refl _
  | cons y ys ih =>
    unfold insertBy
    by_cases h : less y x = true
    · rw [if_pos h]
      exact (ih.cons y).trans (List.Perm.swap x y ys)
    · rw [if_neg h]

theorem sortBy_perm {α : Type} (less : α → α → Bool) (l : List α) :
    (sortBy less l).Perm l := by
  induction l with
  | nil => exact List.Perm.refl _
  | cons x xs ih =>
    exact (insertBy_perm less x (sortBy less xs)).trans (ih.cons x)

theorem insertBy_pairwise {α : Type} (less : α → α → Bool) (le : α → α → Prop)
    (h1 : ∀ a b, less a b = true → le a b)
    (h2 : ∀ a b, less a b = false → le b a)
    (htrans : ∀ a b c, le a b → le b c → le a c)
    (x : α) (l : List α) (hl : l.Pairwise le) :
    (insertBy less x l).Pairwise le := by
  induction l with
  | nil => simp [insertBy]
  | cons y ys ih =>
    rcases List.pairwise_cons.mp hl with ⟨hy, hys⟩
    unfold insertBy
    by_cases h : less y x = true
    · rw [if_pos h]
      refine List.pairwise_cons.mpr ⟨?_, ih hys⟩
      intro z hz
      have hz' : z = x ∨ z ∈ ys := by
        simpa using (insertBy_perm less x ys).mem_iff.mp hz
      rcases hz' with rfl | hz'
      · exact h1 y z h
      · exact hy z hz'
    · rw [if_neg h]
      have hxy : le x y := h2 y x (by simpa using h)
      refine List.pairwise_cons.mpr ⟨?_, hl⟩
      intro z hz
      rcases List.mem_cons.mp hz with rfl | hz'
      · exact hxy
      · exact htrans x y z hxy (hy z hz')

theorem sortBy_pairwise {α : Type} (less : α → α → Bool) (le : α → α → Prop)
    (h1 : ∀ a b, less a b = true → le a b)
    (h2 : ∀ a b, less a b = false → le b a)
    (htrans : ∀ a b c, le a b → le b c → le a c)
    (l : List α) : (sortBy less l).Pairwise le := by
  induction l with
  | nil => simp [sortBy]
  | cons x xs ih => exact insertBy_pairwise less le h1 h2 htrans x (sortBy less xs) ih

theorem treeLess_true (a b : FileTree) (h : treeLess a b = true) : treeOrd a b := by
  unfold treeLess displayLt at h
  by_cases hf : a.IsFile = b.IsFile
  · rw [if_neg (by simp [hf])] at h
    exact Or.inr ⟨hf, asymm (of_decide_eq_true h)⟩
  · rw [if_pos hf] at h
    left
    cases hb : b.IsFile
    · rw [hb] at h; exact absurd h (by simp)
    · cases ha : a.IsFile
      · exact ⟨rfl, rfl⟩
      · exact absurd (ha.trans hb.symm) hf

theorem treeLess_false (a b : FileTree) (h : treeLess a b = false) : treeOrd b a := by
  unfold treeLess displayLt at h
  by_cases hf : a.IsFile = b.IsFile
  · rw [if_neg (by simp [hf])] at h
    exact Or.inr ⟨hf.symm, of_decide_eq_false h⟩
  · rw [if_pos hf] at h
    left
    cases ha : a.IsFile
    · exact absurd (by rw [ha, h] : a.IsFile = b.IsFile) hf
    · cases hb : b.IsFile
      · exact ⟨rfl, rfl⟩
      · rw [hb] at h; exact absurd h (by simp)

theorem treeOrd_trans (a b c : FileTree) (hab : treeOrd a b) (hbc : treeOrd b c) :
    treeOrd a c := by
  rcases hab with ⟨ha, hb⟩ | ⟨hab', hd⟩
  · rcases hbc with ⟨hb', _⟩ | ⟨hbc', _⟩
    · exact absurd (hb.symm.trans hb') (by simp)
    · exact Or.inl ⟨ha, hbc' ▸ hb⟩
  · rcases hbc with ⟨hb', hc⟩ | ⟨hbc', hd'⟩
    · exact Or.inl ⟨hab'.trans hb', hc⟩
    · refine Or.inr ⟨hab'.trans hbc', ?_⟩
      intro hca
      have htri : List.Lex (· < ·) c.Display.toList b.Display.toList ∨
          c.Display.toList = b.Display.toList ∨
          List.Lex (· < ·) b.Display.toList c.Display.toList := trichotomous _ _
      rcases htri with hcb | heq | hbc''
      · exact hd' hcb
      · exact hd (heq ▸ hca)
      · exact hd (Trans.trans hbc'' hca)

theorem firstsBy_subset {α : Type} (key : α → String) (seen : List String)
    (l : List α) (x : α) (hx : x ∈ firstsBy key seen l) : x ∈ l := by
  induction l generalizing seen with
  | nil => simpa [firstsBy] using hx
  | cons a l ih =>
    unfold firstsBy at hx
    by_cases hs : key a ∈ seen
    · rw [if_pos hs] at hx
      exact List.mem_cons_of_mem a (ih seen hx)
    · rw [if_neg hs] at hx
      rcases List.mem_cons.mp hx with rfl | hx'
      · exact List.mem_cons_self _ _
      · exact List.mem_cons_of_mem a (ih _ hx')

/-- A returned file whose relative path has no further slash (a file). -/
def exTreeFileB : FileMatch :=
  { Repository := "r", FileName := "b.txt", Content := [], Checksum := [],
    LineMatches := [] }

/-- A returned file nested under directory `a`. -/
def exTreeFileA : FileMatch :=
  { Repository := "r", FileName := "a/f.txt", Content := [], Checksum := [],
    LineMatches := [] }

/-- A returned file nested under directory `c`. -/
def exTreeFileC : FileMatch :=
  { Repository := "r", FileName := "c/g.txt", Content := [], Checksum := [],
    LineMatches := [] }

/-- The flat result list of the spec's file-tree ordering example. -/
def exTreeFiles : List FileMatch := [exTreeFileB, exTreeFileA, exTreeFileC]

/-- C5: the assembler emits one child per distinct first segment (first
occurrence per segment, after the exact-repository filter, decides the whole
node and hence `IsFile`); a child is a file exactly when its relative path
has no further slash; every child is served with `Children` absent; and the
served list is the collected children reordered so that directories precede
files, alphabetically within each group.  On the spec's example the children
render as `["a", "c", "b.txt"]`. -/
theorem fileTree_children_spec (topRepo topPath : String) (files : List FileMatch) :
    collectChildren topRepo topPath [] files =
      (firstsBy (fun f => (mkChild topPath f).Display) []
        (files.filter (fun f => f.Repository == topRepo))).map (mkChild topPath)
    ∧ (serveFileTreeChildren topRepo topPath files).Perm
        (collectChildren topRepo topPath [] files)
    ∧ (serveFileTreeChildren topRepo topPath files).Pairwise treeOrd
    ∧ (∀ t ∈ serveFileTreeChildren topRepo topPath files, t.Children = none)
    ∧ (∀ f : FileMatch, (mkChild topPath f).IsFile = true ↔
        '/' ∉ trimPrefixL f.FileName.toList (treePrefix topPath).toList)
    ∧ (serveFileTreeChildren "r" "" exTreeFiles).map (fun t => t.Display) =
        ["a", "c", "b.txt"] := by
  refine ⟨collectChildren_eq topRepo topPath [] files, sortBy_perm _ _,
    sortBy_pairwise treeLess treeOrd treeLess_true treeLess_false treeOrd_trans _,
    ?_, ?_, by decide⟩
  · intro t ht
    have ht' := (sortBy_perm treeLess _).mem_iff.mp ht
    rw [collectChildren_eq] at ht'
    rcases List.mem_map.mp ht' with ⟨f, _, rfl⟩
    rfl
  · intro f
    show ((relParts topPath f).length == 1) = true ↔ _
    rw [beq_iff_eq]
    exact splitOnSlash_length_one _

/-- Concrete instance of C5: the `IsFile` characterisation at a concrete
file, and the spec's ordering example. -/
theorem fileTree_children_spec_witness :
    ((mkChild "" exTreeFileB).IsFile = true ↔
        '/' ∉ trimPrefixL exTreeFileB.FileName.toList (treePrefix "").toList)
    ∧ (serveFileTreeChildren "r" "" exTreeFiles).map (fun t => t.Display) =
        ["a", "c", "b.txt"] :=
  ⟨(fileTree_children_spec "r" "" exTreeFiles).2.2.2.2.1 exTreeFileB,
   (fileTree_children_spec "r" "" exTreeFiles).2.2.2.2.2⟩

/-! ## Source fetch (`serveSourceErr` in server.go) -/

/-- The result loop of `serveSourceErr`: skip files whose repository is not
exactly the requested one, return the first remaining file. -/
def sourceLookup (repo : String) : List FileMatch → Option FileMatch
  | [] => none
  | f :: rest => if f.Repository ≠ repo then sourceLookup repo rest else some f

/-- `serveSourceErr`'s response body: the content of the first exactly
matching file; `none` models the "Requested file not in response" error. -/
def serveSourceContent (repo : String) (files : List FileMatch) : Option Bytes :=
  match sourceLookup repo files with
  | some f => some f.Content
  | none => none

theorem sourceLookup_repo (repo : String) (files : List FileMatch) (f : FileMatch)
    (h : sourceLookup repo files = some f) : f.Repository = repo := by
  induction files with
  | nil => simp [sourceLookup] at h
  | cons g rest ih =>
    unfold sourceLookup at h
    by_cases hg : g.Repository = repo
    · rw [if_neg (by simp [hg])] at h
      cases h
      exact hg
    · rw [if_pos hg] at h
      exact ih h

/-- C6: both repository-filtered handlers post-filter the backend's files to
exact repository equality — every served file-tree child comes from a file
whose repository equals the requested one, and the source fetch serves the
content of a file whose repository equals the requested one. -/
theorem repoFilter_exact (topRepo topPath repo : String) (files : List FileMatch) :
    (∀ t ∈ serveFileTreeChildren topRepo topPath files,
        ∃ f ∈ files, f.Repository = topRepo ∧ t = mkChild topPath f)
    ∧ (∀ f, sourceLookup repo files = some f → f.Repository = repo)
    ∧ (∀ f, sourceLookup repo files = some f →
        serveSourceContent repo files = some f.Content) := by
  refine ⟨?_, fun f h => sourceLookup_repo repo files f h, ?_⟩
  · intro t ht
    have ht' := (sortBy_perm treeLess _).mem_iff.mp ht
    rw [collectChildren_eq] at ht'
    rcases List.mem_map.mp ht' with ⟨f, hf, rfl⟩
    have hf' := firstsBy_subset _ _ _ _ hf
    rcases List.mem_filter.mp hf' with ⟨hmem, hrep⟩
    exact ⟨f, hmem, by simpa using hrep, rfl⟩
  · intro f h
    unfold serveSourceContent
    rw [h]

/-- A file exactly in the requested repository. -/
def exSrcFile : FileMatch :=
  { Repository := "rr", FileName := "s.go", Content := [104], Checksum := [9],
    LineMatches := [] }

/-- Concrete instance of C6 with its hypotheses discharged. -/
theorem repoFilter_exact_witness :
    exSrcFile.Repository = "rr"
      ∧ serveSourceContent "rr" [exSrcFile] = some exSrcFile.Content :=
  ⟨(repoFilter_exact "rr" "" "rr" [exSrcFile]).2.1 exSrcFile (by decide),
   (repoFilter_exact "rr" "" "rr" [exSrcFile]).2.2 exSrcFile (by decide)⟩

/-! ## Relevance sort (`sort.SliceStable` call in `serveSearchXrefErr`) -/

/-- The comparator passed to `sort.SliceStable` in `serveSearchXrefErr`.
The Go error branches after each `parseTicket` call are dead code:
`parseTicket` always returns a nil error. -/
def xrefLess (queryTicket : ticket) (fi fj : fileSites) : Bool :=
  let ti := parseTicket fi.containingFile.FileTicket
  let tj := parseTicket fj.containingFile.FileTicket
  if ti.repo ≠ tj.repo ∧ ti.repo = queryTicket.repo then true
  else if ti.repo ≠ tj.repo ∧ tj.repo = queryTicket.repo then false
  else if ti.repo = queryTicket.repo ∧ ti.path ≠ tj.path ∧ ti.path = queryTicket.path then
    true
  else if ti.repo = queryTicket.repo ∧ ti.path ≠ tj.path ∧ tj.path = queryTicket.path then
    false
  else false

/-- The relevance sort applied to the per-file sites before grouping
(`sort.SliceStable`, modelled by the stable `sortBy`). -/
def sortFileSites (queryTicket : ticket) (l : List fileSites) : List fileSites :=
  sortBy (xrefLess queryTicket) l

/-- Relevance rank of a site w.r.t. the requesting ticket: 0 = same
repository and path, 1 = same repository only, 2 = other repository. -/
def siteRank (q : ticket) (fs : fileSites) : Nat :=
  if (parseTicket fs.containingFile.FileTicket).repo = q.repo then
    (if (parseTicket fs.containingFile.FileTicket).path = q.path then 0 else 1)
  else 2

theorem siteRank_le_two (q : ticket) (fs : fileSites) : siteRank q fs ≤ 2 := by
  unfold siteRank
  split_ifs <;> omega

theorem xrefLess_rank (q : ticket) (a b : fileSites) :
    xrefLess q a b = decide (siteRank q a < siteRank q b) := by
  unfold xrefLess siteRank
  by_cases h1 : (parseTicket a.containingFile.FileTicket).repo = q.repo <;>
    by_cases h2 : (parseTicket b.containingFile.FileTicket).repo = q.repo <;>
    by_cases h3 : (parseTicket a.containingFile.FileTicket).repo =
      (parseTicket b.containingFile.FileTicket).repo <;>
    by_cases h4 : (parseTicket a.containingFile.FileTicket).path = q.path <;>
    by_cases h5 : (parseTicket b.containingFile.FileTicket).path = q.path <;>
    by_cases h6 : (parseTicket a.containingFile.FileTicket).path =
      (parseTicket b.containingFile.FileTicket).path <;>
    simp_all

theorem insertBy_all_less {α : Type} (less : α → α → Bool) (x : α) (ys zs : List α)
    (h : ∀ y ∈ ys, less y x = true) :
    insertBy less x (ys ++ zs) = ys ++ insertBy less x zs := by
  induction ys with
  | nil => rfl
  | cons y ys ih =>
    simp only [List.cons_append, insertBy, if_pos (h y (by simp)), List.append_eq]
    rw [ih (fun y' hy' => h y' (by simp [hy']))]

theorem insertBy_front {α : Type} (less : α → α → Bool) (x : α) (zs : List α)
    (h : ∀ z ∈ zs, less z x = false) :
    insertBy less x zs = x :: zs := by
  cases zs with
  | nil => rfl
  | cons z zs => simp [insertBy, h z (by simp)]

theorem sortBy_rank {α : Type} (less : α → α → Bool) (rank : α → Nat)
    (hless : ∀ a b, less a b = decide (rank a < rank b))
    (hrank : ∀ a, rank a ≤ 2) (l : List α) :
    sortBy less l =
      (l.filter fun a => rank a == 0) ++ (l.filter fun a => rank a == 1)
        ++ (l.filter fun a => rank a == 2) := by
  induction l with
  | nil => simp [sortBy]
  | cons x xs ih =>
    have hmem0 : ∀ y ∈ xs.filter (fun a => rank a == 0), rank y = 0 := by
      intro y hy; simpa using (List.mem_filter.mp hy).2
    have hmem1 : ∀ y ∈ xs.filter (fun a => rank a == 1), rank y = 1 := by
      intro y hy; simpa using (List.mem_filter.mp hy).2
    have hmem2 : ∀ y ∈ xs.filter (fun a => rank a == 2), rank y = 2 := by
      intro y hy; simpa using (List.mem_filter.mp hy).2
    show insertBy less x (sortBy less xs) = _
    rw [ih]
    have hx2 := hrank x
    match hrx : rank x with
    | 0 =>
      rw [insertBy_front less x _ (by
        intro z hz
        rw [hless, hrx]
        simp)]
      simp [List.filter_cons, hrx]
    | 1 =>
      rw [List.append_assoc, insertBy_all_less less x _ _ (by
        intro y hy
        rw [hless, hrx, hmem0 y hy]
        simp)]
      rw [insertBy_front less x _ (by
        intro z hz
        rw [hless, hrx]
        rcases List.mem_append.mp hz with hz1 | hz2
        · rw [hmem1 z hz1]; simp
        · rw [hmem2 z hz2]; simp)]
      simp [List.filter_cons, hrx, List.append_assoc]
    | 2 =>
      rw [insertBy_all_less less x _ _ (by
        intro y hy
        rw [hless, hrx]
        rcases List.mem_append.mp hy with hy0 | hy1
        · rw [hmem0 y hy0]; simp
        · rw [hmem1 y hy1]; simp)]
      rw [insertBy_front less x _ (by
        intro z hz
        rw [hless, hrx, hmem2 z hz]
        simp)]
      simp [List.filter_cons, hrx, List.append_assoc]
    | n + 3 => omega

/-- A per-file site with the given file ticket and no snippets. -/
def exSite (t : String) : fileSites :=
  { containingFile := { FileTicket := t, DisplayName := t },
    snippets := [], fileChecksum := [], snippetsHash := [] }

/-- C3: the relevance sort is exactly the stable three-way bucketing by
relevance rank — sites of the requesting ticket's repository first (its exact
path first among them), everything else after, relative order preserved
inside each bucket; the spec's four-element example sorts as stated. -/
theorem xref_sort_relevance (q : ticket) (l : List fileSites) :
    sortFileSites q l =
      (l.filter fun fs => siteRank q fs == 0) ++ (l.filter fun fs => siteRank q fs == 1)
        ++ (l.filter fun fs => siteRank q fs == 2)
    ∧ sortFileSites { repo := "repo1", path := "pathA" }
        [exSite "repo2:x", exSite "repo1:pathB", exSite "repo1:pathA", exSite "repo2:y"] =
      [exSite "repo1:pathA", exSite "repo1:pathB", exSite "repo2:x", exSite "repo2:y"] :=
  ⟨sortBy_rank (xrefLess q) (siteRank q) (xrefLess_rank q) (siteRank_le_two q) l,
   by decide⟩

/-! ## Reference grouping and dedup (`groupSites` in server.go)

The two Go maps (`seenTickets` keyed by the file checksum bytes,
`contentGroups` keyed by the snippets-hash bytes) are modelled as association
lists whose operations — lookup, insert-if-absent, update-in-place — are the
only ones the loop performs. -/

/-- Association-list lookup (the read side of the Go maps). -/
def alookup {κ α : Type} [DecidableEq κ] : List (κ × α) → κ → Option α
  | [], _ => none
  | (k', v) :: m, k => if k' = k then some v else alookup m k

/-- Association-list update of an existing key (the write side of
`contentGroups[h] = append(contentGroups[h], s)`). -/
def aupdate {κ α : Type} [DecidableEq κ] : List (κ × α) → κ → α → List (κ × α)
  | [], _, _ => []
  | (k', v') :: m, k, v =>
    if k' = k then (k, v) :: aupdate m k v else (k', v') :: aupdate m k v

/-- The loop state of `groupSites`. -/
structure GroupState where
  seenTickets : List (Bytes × UhDisplayedFile)
  contentGroups : List (Bytes × List UhFileSites)
  contentGroupOrder : List Bytes
  snipCnt : Nat
  fileCnt : Nat
  fileDupCnt : Nat
  matchDupCnt : Nat
deriving DecidableEq, Repr

/-- One iteration of `groupSites`'s loop. -/
def stepSite (st : GroupState) (fs : fileSites) : GroupState :=
  let dupTick : Option UhDisplayedFile := alookup st.seenTickets fs.fileChecksum
  let seen' : List (Bytes × UhDisplayedFile) :=
    match dupTick with
    | some _ => st.seenTickets
    | none => st.seenTickets ++ [(fs.fileChecksum, fs.containingFile)]
  let fileDupCnt' : Nat :=
    match dupTick with
    | some _ => st.fileDupCnt + 1
    | none => st.fileDupCnt
  let s : UhFileSites :=
    { ContainingFile := fs.containingFile, IsDupOf := dupTick, Snippets := fs.snippets }
  match alookup st.contentGroups fs.snippetsHash with
  | some g =>
    { seenTickets := seen',
      contentGroups := aupdate st.contentGroups fs.snippetsHash (g ++ [s]),
      contentGroupOrder := st.contentGroupOrder,
      snipCnt := st.snipCnt + fs.snippets.length,
      fileCnt := st.fileCnt + 1,
      fileDupCnt := fileDupCnt',
      matchDupCnt := st.matchDupCnt + 1 }
  | none =>
    { seenTickets := seen',
      contentGroups := st.contentGroups ++ [(fs.snippetsHash, [s])],
      contentGroupOrder := st.contentGroupOrder ++ [fs.snippetsHash],
      snipCnt := st.snipCnt + fs.snippets.length,
      fileCnt := st.fileCnt + 1,
      fileDupCnt := fileDupCnt',
      matchDupCnt := st.matchDupCnt }

/-- The all-empty state `groupSites` starts from. -/
def initGroupState : GroupState :=
  { seenTickets := [], contentGroups := [], contentGroupOrder := [],
    snipCnt := 0, fileCnt := 0, fileDupCnt := 0, matchDupCnt := 0 }

/-- `groupSites` in server.go: the loop, then one `UhSiteGroup` per content
hash in first-seen order. -/
def groupSites (l : List fileSites) : groupResult :=
  let st := l.foldl stepSite initGroupState
  { snipCnt := st.snipCnt, fileCnt := st.fileCnt, fileDupCnt := st.fileDupCnt,
    matchDupCnt := st.matchDupCnt,
    groups := st.contentGroupOrder.map
      (fun h => { Files := (alookup st.contentGroups h).getD [] }) }

/-- First element of `pre` carrying checksum `c` (the canonical file for
that checksum when `pre` is the list of previously processed sites). -/
def firstWithChecksum : List fileSites → Bytes → Option fileSites
  | [], _ => none
  | q :: rest, c => if q.fileChecksum = c then some q else firstWithChecksum rest c

/-- The `UhFileSites` record `groupSites` emits for `fs` when the sites
processed before it are `pre`: canonical sites get `IsDupOf = none`, later
same-checksum sites point at the canonical site's displayed file. -/
def emitSite (pre : List fileSites) (fs : fileSites) : UhFileSites :=
  { ContainingFile := fs.containingFile,
    IsDupOf := (firstWithChecksum pre fs.fileChecksum).map (fun q => q.containingFile),
    Snippets := fs.snippets }

/-- All emitted sites in processing order, each paired with its group hash. -/
def emitAll (pre : List fileSites) : List fileSites → List (Bytes × UhFileSites)
  | [] => []
  | fs :: rest => (fs.snippetsHash, emitSite pre fs) :: emitAll (pre ++ [fs]) rest

/-- The sites among `m` keyed by hash `h`, in order. -/
def sitesFor (h : Bytes) : List (Bytes × UhFileSites) → List UhFileSites
  | [] => []
  | (h', s) :: rest => if h' = h then s :: sitesFor h rest else sitesFor h rest

/-- The members of the content group with hash `h`, in processing order. -/
def membersOf (l : List fileSites) (h : Bytes) : List UhFileSites :=
  sitesFor h (emitAll [] l)

/-- First occurrences of a key list, relative to already-seen keys. -/
def firstSeenAux {κ : Type} [DecidableEq κ] (seen : List κ) : List κ → List κ
  | [] => []
  | x :: xs =>
    if x ∈ seen then firstSeenAux seen xs else x :: firstSeenAux (x :: seen) xs

/-- The distinct keys of a list in first-seen order. -/
def firstSeen {κ : Type} [DecidableEq κ] (l : List κ) : List κ :=
  firstSeenAux [] l

/-- Number of elements whose key was already seen when reached (scanning
left to right, starting from `seen`). -/
def dupCountAux {κ α : Type} [DecidableEq κ] (key : α → κ) (seen : List κ) :
    List α → Nat
  | [] => 0
  | a :: rest =>
    if key a ∈ seen then 1 + dupCountAux key seen rest
    else dupCountAux key (key a :: seen) rest

/-- Number of elements preceded by an earlier element with the same key. -/
def dupCount {κ α : Type} [DecidableEq κ] (key : α → κ) (l : List α) : Nat :=
  dupCountAux key [] l

theorem alookup_append_single {κ α : Type} [DecidableEq κ] (m : List (κ × α))
    (k : κ) (v : α) (c : κ) :
    alookup (m ++ [(k, v)]) c =
      match alookup m c with
      | some x => some x
      | none => if k = c then some v else none := by
  induction m with
  | nil => simp [alookup]
  | cons p m ih =>
    obtain ⟨k', v'⟩ := p
    by_cases h : k' = c
    · simp [alookup, h]
    · simp [alookup, h, ih]

theorem alookup_aupdate {κ α : Type} [DecidableEq κ] (m : List (κ × α))
    (k : κ) (v : α) (c : κ) :
    alookup (aupdate m k v) c =
      if k = c then
        match alookup m c with
        | some _ => some v
        | none => none
      else alookup m c := by
  induction m with
  | nil =>
    simp only [aupdate, alookup]
    split <;> rfl
  | cons p m ih =>
    obtain ⟨k', v'⟩ := p
    by_cases hk : k' = k
    · subst hk
      by_cases hc : k' = c
      · subst hc
        simp [aupdate, alookup]
      · simp [aupdate, alookup, hc, ih, fun h : k' = c => hc h]
    · by_cases hc : k' = c
      · subst hc
        have hkc : ¬ k = k' := fun h => hk h.symm
        simp [aupdate, alookup, hk, hkc]
      · simp [aupdate, alookup, hk, hc, ih]

theorem firstWithChecksum_snoc (p : List fileSites) (fs : fileSites) (c : Bytes) :
    firstWithChecksum (p ++ [fs]) c =
      match firstWithChecksum p c with
      | some q => some q
      | none => if fs.fileChecksum = c then some fs else none := by
  induction p with
  | nil => simp [firstWithChecksum]
  | cons q p ih =>
    by_cases h : q.fileChecksum = c
    · simp [firstWithChecksum, h]
    · simp [firstWithChecksum, h, ih]

theorem firstWithChecksum_none (p : List fileSites) (c : Bytes)
    (h : ∀ q ∈ p, q.fileChecksum ≠ c) : firstWithChecksum p c = none := by
  induction p with
  | nil => rfl
  | cons q p ih =>
    simp [firstWithChecksum, h q (by simp),
      ih (fun q' hq' => h q' (by simp [hq']))]

theorem firstWithChecksum_none_iff (p : List fileSites) (c : Bytes) :
    firstWithChecksum p c = none ↔ c ∉ p.map (fun fs => fs.fileChecksum) := by
  induction p with
  | nil => simp [firstWithChecksum]
  | cons q p ih =>
    by_cases h : q.fileChecksum = c
    · simp [firstWithChecksum, h]
    · simp only [firstWithChecksum, if_neg h, ih, List.map_cons, List.mem_cons]
      constructor
      · intro hn hor
        rcases hor with hor | hor
        · exact h hor.symm
        · exact hn hor
      · intro hn hc
        exact hn (Or.inr hc)

theorem firstWithChecksum_first (pre1 : List fileSites) (q : fileSites)
    (pre2 : List fileSites) (c : Bytes) (hq : q.fileChecksum = c)
    (hpre : ∀ q' ∈ pre1, q'.fileChecksum ≠ c) :
    firstWithChecksum (pre1 ++ q :: pre2) c = some q := by
  induction pre1 with
  | nil => simp [firstWithChecksum, hq]
  | cons a pre1 ih =>
    simp [firstWithChecksum, hpre a (by simp),
      ih (fun x hx => hpre x (by simp [hx]))]

theorem emitAll_append (pre l1 l2 : List fileSites) :
    emitAll pre (l1 ++ l2) = emitAll pre l1 ++ emitAll (pre ++ l1) l2 := by
  induction l1 generalizing pre with
  | nil => simp [emitAll]
  | cons fs l1 ih =>
    simp only [List.cons_append, emitAll, List.append_eq, ih (pre ++ [fs]),
      List.append_assoc, List.singleton_append, List.nil_append]

theorem sitesFor_append (h : Bytes) (m1 m2 : List (Bytes × UhFileSites)) :
    sitesFor h (m1 ++ m2) = sitesFor h m1 ++ sitesFor h m2 := by
  induction m1 with
  | nil => rfl
  | cons p m1 ih =>
    obtain ⟨h', s⟩ := p
    by_cases hh : h' = h
    · simp [sitesFor, hh, ih]
    · simp [sitesFor, hh, ih]

theorem membersOf_snoc (l : List fileSites) (fs : fileSites) (h : Bytes) :
    membersOf (l ++ [fs]) h =
      membersOf l h ++ (if fs.snippetsHash = h then [emitSite l fs] else []) := by
  unfold membersOf
  rw [emitAll_append, sitesFor_append]
  congr 1

theorem emitAll_keys (pre l : List fileSites) :
    (emitAll pre l).map Prod.fst = l.map (fun fs => fs.snippetsHash) := by
  induction l generalizing pre with
  | nil => rfl
  | cons fs l ih => simp [emitAll, ih]

theorem sitesFor_eq_nil (h : Bytes) (m : List (Bytes × UhFileSites))
    (hm : ∀ x ∈ m, x.1 ≠ h) : sitesFor h m = [] := by
  induction m with
  | nil => rfl
  | cons p m ih =>
    obtain ⟨h', s⟩ := p
    simp [sitesFor, hm (h', s) (by simp),
      ih (fun x hx => hm x (by simp [hx]))]

theorem membersOf_eq_nil (l : List fileSites) (h : Bytes)
    (hl : h ∉ l.map (fun fs => fs.snippetsHash)) : membersOf l h = [] := by
  apply sitesFor_eq_nil
  intro x hx hxh
  apply hl
  rw [← emitAll_keys [] l]
  exact hxh ▸ List.mem_map_of_mem Prod.fst hx

theorem firstSeenAux_snoc {κ : Type} [DecidableEq κ] (seen ks : List κ) (k : κ) :
    firstSeenAux seen (ks ++ [k]) =
      firstSeenAux seen ks ++ (if k ∈ seen ∨ k ∈ ks then [] else [k]) := by
  induction ks generalizing seen with
  | nil => by_cases h : k ∈ seen <;> simp [firstSeenAux, h]
  | cons x ks ih =>
    by_cases hx : x ∈ seen
    · simp only [List.cons_append, firstSeenAux, if_pos hx, List.append_eq]
      rw [ih seen]
      have hiff : (k ∈ seen ∨ k ∈ ks) ↔ (k ∈ seen ∨ k ∈ x :: ks) := by
        constructor
        · rintro (h | h)
          · exact Or.inl h
          · exact Or.inr (List.mem_cons_of_mem x h)
        · rintro (h | h)
          · exact Or.inl h
          · rcases List.mem_cons.mp h with rfl | h'
            · exact Or.inl hx
            · exact Or.inr h'
      rw [if_congr hiff rfl rfl]
    · simp only [List.cons_append, firstSeenAux, if_neg hx, List.append_eq]
      rw [ih (x :: seen)]
      have hiff : (k ∈ x :: seen ∨ k ∈ ks) ↔ (k ∈ seen ∨ k ∈ x :: ks) := by
        constructor
        · rintro (h | h)
          · rcases List.mem_cons.mp h with rfl | h'
            · exact Or.inr (List.mem_cons_self _ _)
            · exact Or.inl h'
          · exact Or.inr (List.mem_cons_of_mem x h)
        · rintro (h | h)
          · exact Or.inl (List.mem_cons_of_mem x h)
          · rcases List.mem_cons.mp h with rfl | h'
            · exact Or.inl (List.mem_cons_self _ _)
            · exact Or.inr h'
      rw [if_congr hiff rfl rfl]

theorem mem_firstSeenAux {κ : Type} [DecidableEq κ] (seen l : List κ) (x : κ) :
    x ∈ firstSeenAux seen l ↔ x ∈ l ∧ x ∉ seen := by
  induction l generalizing seen with
  | nil => simp [firstSeenAux]
  | cons y ys ih =>
    by_cases hy : y ∈ seen
    · simp only [firstSeenAux, if_pos hy, ih, List.mem_cons]
      constructor
      · rintro ⟨hm, hn⟩; exact ⟨Or.inr hm, hn⟩
      · rintro ⟨hm | hm, hn⟩
        · exact absurd (by rw [hm]; exact hy) hn
        · exact ⟨hm, hn⟩
    · simp only [firstSeenAux, if_neg hy, List.mem_cons, ih]
      constructor
      · rintro (rfl | ⟨hm, hn⟩)
        · exact ⟨Or.inl rfl, hy⟩
        · exact ⟨Or.inr hm, fun hc => hn (Or.inr hc)⟩
      · rintro ⟨rfl | hm, hn⟩
        · exact Or.inl rfl
        · by_cases hxy : x = y
          · exact Or.inl hxy
          · refine Or.inr ⟨hm, fun hc => ?_⟩
            rcases hc with h | h
            · exact hxy h
            · exact hn h

theorem dupCountAux_snoc {κ α : Type} [DecidableEq κ] (key : α → κ)
    (seen : List κ) (l : List α) (a : α) :
    dupCountAux key seen (l ++ [a]) =
      dupCountAux key seen l + (if key a ∈ seen ∨ key a ∈ l.map key then 1 else 0) := by
  induction l generalizing seen with
  | nil => by_cases h : key a ∈ seen <;> simp [dupCountAux, h]
  | cons b l ih =>
    by_cases hb : key b ∈ seen
    · simp only [List.cons_append, dupCountAux, if_pos hb, List.append_eq]
      rw [ih seen]
      have hiff : (key a ∈ seen ∨ key a ∈ l.map key) ↔
          (key a ∈ seen ∨ key a ∈ (b :: l).map key) := by
        simp only [List.map_cons, List.mem_cons]
        constructor
        · rintro (h | h)
          · exact Or.inl h
          · exact Or.inr (Or.inr h)
        · rintro (h | h | h)
          · exact Or.inl h
          · exact Or.inl (by rw [h]; exact hb)
          · exact Or.inr h
      rw [if_congr hiff rfl rfl]
      omega
    · simp only [List.cons_append, dupCountAux, if_neg hb, List.append_eq]
      rw [ih (key b :: seen)]
      have hiff : (key a ∈ key b :: seen ∨ key a ∈ l.map key) ↔
          (key a ∈ seen ∨ key a ∈ (b :: l).map key) := by
        simp only [List.mem_cons, List.map_cons]
        constructor
        · rintro ((h | h) | h)
          · exact Or.inr (Or.inl h)
          · exact Or.inl h
          · exact Or.inr (Or.inr h)
        · rintro (h | h | h)
          · exact Or.inl (Or.inr h)
          · exact Or.inl (Or.inl h)
          · exact Or.inr h
      rw [if_congr hiff rfl rfl]

/-- The loop invariant of `groupSites`: after processing the prefix `p`, the
state is determined by `p` — the seen-checksums map holds the first site per
checksum, the group map holds the emitted sites per hash in processing order,
the order list holds the hashes in first-seen order, and the four counters
hold their accumulated totals. -/
def GroupInv (p : List fileSites) (st : GroupState) : Prop :=
  (∀ c, alookup st.seenTickets c =
      (firstWithChecksum p c).map (fun q => q.containingFile))
  ∧ st.contentGroupOrder = firstSeen (p.map (fun fs => fs.snippetsHash))
  ∧ (∀ h, alookup st.contentGroups h =
      if h ∈ p.map (fun fs => fs.snippetsHash) then some (membersOf p h) else none)
  ∧ st.snipCnt = (p.map (fun fs => fs.snippets.length)).sum
  ∧ st.fileCnt = p.length
  ∧ st.fileDupCnt = dupCount (fun fs => fs.fileChecksum) p
  ∧ st.matchDupCnt = dupCount (fun fs => fs.snippetsHash) p

theorem stepSite_eq_some (st : GroupState) (fs : fileSites) (g : List UhFileSites)
    (hg : alookup st.contentGroups fs.snippetsHash = some g) :
    stepSite st fs =
      { seenTickets :=
          match alookup st.seenTickets fs.fileChecksum with
          | some _ => st.seenTickets
          | none => st.seenTickets ++ [(fs.fileChecksum, fs.containingFile)],
        contentGroups := aupdate st.contentGroups fs.snippetsHash
          (g ++ [{ ContainingFile := fs.containingFile,
                   IsDupOf := alookup st.seenTickets fs.fileChecksum,
                   Snippets := fs.snippets }]),
        contentGroupOrder := st.contentGroupOrder,
        snipCnt := st.snipCnt + fs.snippets.length,
        fileCnt := st.fileCnt + 1,
        fileDupCnt :=
          match alookup st.seenTickets fs.fileChecksum with
          | some _ => st.fileDupCnt + 1
          | none => st.fileDupCnt,
        matchDupCnt := st.matchDupCnt + 1 } := by
  simp only [stepSite, hg]

theorem stepSite_eq_none (st : GroupState) (fs : fileSites)
    (hg : alookup st.contentGroups fs.snippetsHash = none) :
    stepSite st fs =
      { seenTickets :=
          match alookup st.seenTickets fs.fileChecksum with
          | some _ => st.seenTickets
          | none => st.seenTickets ++ [(fs.fileChecksum, fs.containingFile)],
        contentGroups := st.contentGroups ++
          [(fs.snippetsHash,
            [{ ContainingFile := fs.containingFile,
               IsDupOf := alookup st.seenTickets fs.fileChecksum,
               Snippets := fs.snippets }])],
        contentGroupOrder := st.contentGroupOrder ++ [fs.snippetsHash],
        snipCnt := st.snipCnt + fs.snippets.length,
        fileCnt := st.fileCnt + 1,
        fileDupCnt :=
          match alookup st.seenTickets fs.fileChecksum with
          | some _ => st.fileDupCnt + 1
          | none => st.fileDupCnt,
        matchDupCnt := st.matchDupCnt } := by
  simp only [stepSite, hg]

theorem seenTickets_step (p : List fileSites) (st : GroupState) (fs : fileSites)
    (h1 : ∀ c, alookup st.seenTickets c =
      (firstWithChecksum p c).map (fun q => q.containingFile)) (c : Bytes) :
    alookup
      (match alookup st.seenTickets fs.fileChecksum with
        | some _ => st.seenTickets
        | none => st.seenTickets ++ [(fs.fileChecksum, fs.containingFile)]) c =
      (firstWithChecksum (p ++ [fs]) c).map (fun q => q.containingFile) := by
  rw [h1 fs.fileChecksum]
  cases hq : firstWithChecksum p fs.fileChecksum with
  | some q =>
    simp only [hq, Option.map_some']
    rw [h1 c, firstWithChecksum_snoc]
    cases hc : firstWithChecksum p c with
    | some q' => rfl
    | none =>
      by_cases hcc : fs.fileChecksum = c
      · rw [hcc] at hq
        rw [hq] at hc
        cases hc
      · simp [hcc]
  | none =>
    simp only [hq, Option.map_none']
    rw [alookup_append_single, h1 c, firstWithChecksum_snoc]
    cases hc : firstWithChecksum p c with
    | some q' => rfl
    | none => by_cases hcc : fs.fileChecksum = c <;> simp [hcc]

theorem fileDupCnt_step (p : List fileSites) (st : GroupState) (fs : fileSites)
    (h1 : ∀ c, alookup st.seenTickets c =
      (firstWithChecksum p c).map (fun q => q.containingFile))
    (h6 : st.fileDupCnt = dupCount (fun fs => fs.fileChecksum) p) :
    (match alookup st.seenTickets fs.fileChecksum with
      | some _ => st.fileDupCnt + 1
      | none => st.fileDupCnt) =
      dupCount (fun fs => fs.fileChecksum) (p ++ [fs]) := by
  rw [h1 fs.fileChecksum]
  unfold dupCount
  rw [dupCountAux_snoc]
  cases hq : firstWithChecksum p fs.fileChecksum with
  | some q =>
    have hmem : fs.fileChecksum ∈ p.map (fun fs => fs.fileChecksum) := by
      by_contra hn
      rw [(firstWithChecksum_none_iff p fs.fileChecksum).mpr hn] at hq
      cases hq
    simp only [Option.map_some']
    rw [if_pos (Or.inr hmem), h6]
    rfl
  | none =>
    have hmem : fs.fileChecksum ∉ p.map (fun fs => fs.fileChecksum) :=
      (firstWithChecksum_none_iff p fs.fileChecksum).mp hq
    simp only [Option.map_none']
    rw [if_neg (by
      rintro (h | h)
      · simp at h
      · exact hmem h), h6]
    rfl

theorem stepSite_inv (p : List fileSites) (st : GroupState) (fs : fileSites)
    (hinv : GroupInv p st) : GroupInv (p ++ [fs]) (stepSite st fs) := by
  obtain ⟨h1, h2, h3, h4, h5, h6, h7⟩ := hinv
  have hsite : (⟨fs.containingFile, alookup st.seenTickets fs.fileChecksum,
      fs.snippets⟩ : UhFileSites) = emitSite p fs := by
    unfold emitSite
    rw [h1 fs.fileChecksum]
  by_cases hmem : fs.snippetsHash ∈ p.map (fun fs => fs.snippetsHash)
  · have hg : alookup st.contentGroups fs.snippetsHash =
        some (membersOf p fs.snippetsHash) := by
      rw [h3 fs.snippetsHash, if_pos hmem]
    rw [stepSite_eq_some st fs _ hg]
    refine ⟨seenTickets_step p st fs h1, ?_, ?_, ?_, ?_,
      fileDupCnt_step p st fs h1 h6, ?_⟩
    · show st.contentGroupOrder = _
      rw [h2]
      unfold firstSeen
      rw [List.map_append, List.map_singleton, firstSeenAux_snoc,
        if_pos (Or.inr hmem), List.append_nil]
    · intro h
      show alookup (aupdate st.contentGroups fs.snippetsHash _) h = _
      rw [alookup_aupdate]
      by_cases hh : fs.snippetsHash = h
      · subst hh
        rw [if_pos rfl, h3 fs.snippetsHash, if_pos hmem]
        have hmem' : fs.snippetsHash ∈ (p ++ [fs]).map (fun fs => fs.snippetsHash) := by
          rw [List.map_append]
          exact List.mem_append_left _ hmem
        rw [if_pos hmem', membersOf_snoc, if_pos rfl, hsite]
      · rw [if_neg hh, h3 h]
        have hiff : h ∈ (p ++ [fs]).map (fun fs => fs.snippetsHash) ↔
            h ∈ p.map (fun fs => fs.snippetsHash) := by
          rw [List.map_append, List.mem_append]
          constructor
          · rintro (hl | hr)
            · exact hl
            · have hhe : h = fs.snippetsHash := by simpa using hr
              exact absurd hhe.symm hh
          · exact Or.inl
        rw [membersOf_snoc, if_neg hh, List.append_nil]
        by_cases hp : h ∈ p.map (fun fs => fs.snippetsHash)
        · rw [if_pos hp, if_pos (hiff.mpr hp)]
        · rw [if_neg hp, if_neg (fun hc => hp (hiff.mp hc))]
    · show st.snipCnt + fs.snippets.length = _
      rw [h4, List.map_append, List.sum_append]
      rfl
    · show st.fileCnt + 1 = _
      rw [h5, List.length_append]
      rfl
    · show st.matchDupCnt + 1 = _
      unfold dupCount
      rw [dupCountAux_snoc, if_pos (Or.inr hmem), h7]
      rfl
  · have hg : alookup st.contentGroups fs.snippetsHash = none := by
      rw [h3 fs.snippetsHash, if_neg hmem]
    rw [stepSite_eq_none st fs hg]
    refine ⟨seenTickets_step p st fs h1, ?_, ?_, ?_, ?_,
      fileDupCnt_step p st fs h1 h6, ?_⟩
    · show st.contentGroupOrder ++ [fs.snippetsHash] = _
      rw [h2]
      unfold firstSeen
      rw [List.map_append, List.map_singleton, firstSeenAux_snoc,
        if_neg (by
          rintro (h | h)
          · simp at h
          · exact hmem h)]
    · intro h
      show alookup (st.contentGroups ++ _) h = _
      rw [alookup_append_single, h3 h]
      by_cases hh : fs.snippetsHash = h
      · subst hh
        rw [if_neg hmem]
        have hmem' : fs.snippetsHash ∈ (p ++ [fs]).map (fun fs => fs.snippetsHash) := by
          rw [List.map_append, List.mem_append]
          exact Or.inr (by simp)
        rw [if_pos hmem']
        show (if fs.snippetsHash = fs.snippetsHash then _ else _) = _
        rw [if_pos rfl, membersOf_snoc, if_pos rfl,
          membersOf_eq_nil p fs.snippetsHash hmem, hsite]
        rfl
      · have hiff : h ∈ (p ++ [fs]).map (fun fs => fs.snippetsHash) ↔
            h ∈ p.map (fun fs => fs.snippetsHash) := by
          rw [List.map_append, List.mem_append]
          constructor
          · rintro (hl | hr)
            · exact hl
            · have hhe : h = fs.snippetsHash := by simpa using hr
              exact absurd hhe.symm hh
          · exact Or.inl
        by_cases hp : h ∈ p.map (fun fs => fs.snippetsHash)
        · rw [if_pos hp]
          show some (membersOf p h) = _
          rw [if_pos (hiff.mpr hp), membersOf_snoc, if_neg hh, List.append_nil]
        · rw [if_neg hp]
          show (if fs.snippetsHash = h then _ else _) = _
          rw [if_neg hh, if_neg (fun hc => hp (hiff.mp hc))]
    · show st.snipCnt + fs.snippets.length = _
      rw [h4, List.map_append, List.sum_append]
      rfl
    · show st.fileCnt + 1 = _
      rw [h5, List.length_append]
      rfl
    · show st.matchDupCnt = _
      unfold dupCount
      rw [dupCountAux_snoc, if_neg (by
        rintro (h | h)
        · simp at h
        · exact hmem h), h7]
      rfl

theorem groupInv_init : GroupInv [] initGroupState := by
  refine ⟨fun c => rfl, rfl, fun h => by simp [alookup, membersOf, initGroupState],
    rfl, rfl, rfl, rfl⟩

theorem foldl_stepSite_inv (l : List fileSites) :
    ∀ (p : List fileSites) (st : GroupState), GroupInv p st →
      GroupInv (p ++ l) (l.foldl stepSite st) := by
  induction l with
  | nil => intro p st h; simpa using h
  | cons fs rest ih =>
    intro p st h
    have := ih (p ++ [fs]) (stepSite st fs) (stepSite_inv p st fs h)
    simpa [List.append_assoc] using this

theorem groupSites_inv (l : List fileSites) :
    GroupInv l (l.foldl stepSite initGroupState) := by
  have := foldl_stepSite_inv l [] initGroupState groupInv_init
  simpa using this

/-- Closed form of `groupSites`: the counters are the accumulated totals and
the groups are the emitted sites bucketed by hash in first-seen order. -/
theorem groupSites_eq (l : List fileSites) :
    groupSites l =
      { snipCnt := (l.map (fun fs => fs.snippets.length)).sum,
        fileCnt := l.length,
        fileDupCnt := dupCount (fun fs => fs.fileChecksum) l,
        matchDupCnt := dupCount (fun fs => fs.snippetsHash) l,
        groups := (firstSeen (l.map (fun fs => fs.snippetsHash))).map
          (fun h => { Files := membersOf l h }) } := by
  obtain ⟨h1, h2, h3, h4, h5, h6, h7⟩ := groupSites_inv l
  simp only [groupSites]
  rw [h2, h4, h5, h6, h7]
  congr 1
  apply List.map_congr_left
  intro h hmem
  have hmem' : h ∈ l.map (fun fs => fs.snippetsHash) :=
    ((mem_firstSeenAux [] _ h).mp hmem).1
  rw [h3 h, if_pos hmem']
  rfl

/-- C2: the emitted groups are exactly the per-file records bucketed by their
`snippetsHash`, the buckets in first-seen hash order and the members of each
bucket in first-seen (processing) order, and `rcDupMatches` counts the sites
that joined a bucket that already had a member. -/
theorem groupSites_grouping (l : List fileSites) :
    (groupSites l).groups =
      (firstSeen (l.map (fun fs => fs.snippetsHash))).map
        (fun h => { Files := membersOf l h })
    ∧ (groupSites l).matchDupCnt = dupCount (fun fs => fs.snippetsHash) l := by
  rw [groupSites_eq l]
  exact ⟨rfl, rfl⟩

theorem emitSite_mem_membersOf (pre : List fileSites) (fs : fileSites)
    (post : List fileSites) :
    emitSite pre fs ∈ membersOf (pre ++ fs :: post) fs.snippetsHash := by
  unfold membersOf
  rw [emitAll_append, sitesFor_append]
  apply List.mem_append_right
  rw [List.nil_append]
  simp only [emitAll, sitesFor, if_pos rfl]
  exact List.mem_cons_self _ _

/-- C1: `rcDupFiles` counts the sites preceded by an earlier site with the
same checksum; every input site is emitted into the group of its hash as
`emitSite`; and `emitSite` marks the first site of a checksum with
`IsDupOf = none` while every later one points at the first (canonical)
site's displayed file. -/
theorem groupSites_file_dedup (l : List fileSites) :
    (groupSites l).fileDupCnt = dupCount (fun fs => fs.fileChecksum) l
    ∧ (∀ pre fs post, l = pre ++ fs :: post →
        ({ Files := membersOf l fs.snippetsHash } : UhSiteGroup) ∈
            (groupSites l).groups
          ∧ emitSite pre fs ∈ membersOf l fs.snippetsHash)
    ∧ (∀ pre fs, (∀ q ∈ pre, q.fileChecksum ≠ fs.fileChecksum) →
        (emitSite pre fs).IsDupOf = none)
    ∧ (∀ pre1 q pre2 fs, q.fileChecksum = fs.fileChecksum →
        (∀ q' ∈ pre1, q'.fileChecksum ≠ fs.fileChecksum) →
        (emitSite (pre1 ++ q :: pre2) fs).IsDupOf = some q.containingFile) := by
  refine ⟨?_, ?_, ?_, ?_⟩
  · rw [groupSites_eq l]
  · intro pre fs post hdec
    constructor
    · rw [groupSites_eq l]
      show _ ∈ List.map _ _
      apply List.mem_map_of_mem
      show fs.snippetsHash ∈ firstSeenAux [] _
      rw [mem_firstSeenAux]
      refine ⟨?_, by simp⟩
      rw [hdec]
      exact List.mem_map_of_mem _ (by simp)
    · rw [hdec]
      exact emitSite_mem_membersOf pre fs post
  · intro pre fs hne
    unfold emitSite
    rw [firstWithChecksum_none pre _ hne]
    rfl
  · intro pre1 q pre2 fs hq hpre
    unfold emitSite
    rw [firstWithChecksum_first pre1 q pre2 _ hq hpre]
    rfl

/-- A site with checksum `[7]` and matched-line hash `[1]`. -/
def exDupA : fileSites :=
  { containingFile := { FileTicket := "r:a", DisplayName := "r:a" },
    snippets := [], fileChecksum := [7], snippetsHash := [1] }

/-- A site with the same checksum `[7]` but a different matched-line hash. -/
def exDupB : fileSites :=
  { containingFile := { FileTicket := "r:b", DisplayName := "r:b" },
    snippets := [], fileChecksum := [7], snippetsHash := [2] }

/-- A second site with checksum `[7]` and matched-line hash `[1]`. -/
def exDupC : fileSites :=
  { containingFile := { FileTicket := "r:c", DisplayName := "r:c" },
    snippets := [], fileChecksum := [7], snippetsHash := [1] }

/-- Concrete instance of C1 with its embedded hypotheses discharged. -/
theorem groupSites_file_dedup_witness :
    (({ Files := membersOf [exDupA, exDupB] exDupB.snippetsHash } : UhSiteGroup) ∈
          (groupSites [exDupA, exDupB]).groups
        ∧ emitSite [exDupA] exDupB ∈ membersOf [exDupA, exDupB] exDupB.snippetsHash)
      ∧ (emitSite [] exDupA).IsDupOf = none
      ∧ (emitSite [exDupA] exDupB).IsDupOf = some exDupA.containingFile :=
  ⟨(groupSites_file_dedup [exDupA, exDupB]).2.1 [exDupA] exDupB [] rfl,
   (groupSites_file_dedup [exDupA, exDupB]).2.2.1 [] exDupA (by simp),
   (groupSites_file_dedup [exDupA, exDupB]).2.2.2 [] exDupA [] exDupB (by decide)
     (by simp)⟩

/-- C4 counterexample: on two sites with equal file checksums but different
matched-line hashes, `rcDupFiles = 1` while `rcDupMatches = 0`, so the
claimed inequality fails for this input list. -/
theorem dupCounters_counterexample :
    ¬ ((groupSites [exDupA, exDupB]).matchDupCnt ≥
        (groupSites [exDupA, exDupB]).fileDupCnt) := by
  decide

theorem dupCountAux_le_of_consistent (l : List fileSites) :
    ∀ (seenC seenH : List Bytes),
      (∀ fs ∈ l, fs.fileChecksum ∈ seenC → fs.snippetsHash ∈ seenH) →
      (∀ a ∈ l, ∀ b ∈ l, a.fileChecksum = b.fileChecksum →
        a.snippetsHash = b.snippetsHash) →
      dupCountAux (fun fs => fs.fileChecksum) seenC l ≤
        dupCountAux (fun fs => fs.snippetsHash) seenH l := by
  induction l with
  | nil =>
    intro seenC seenH _ _
    exact Nat.le_refl _
  | cons fs rest ih =>
    intro seenC seenH hlink hcons
    have hconsr : ∀ a ∈ rest, ∀ b ∈ rest, a.fileChecksum = b.fileChecksum →
        a.snippetsHash = b.snippetsHash :=
      fun a ha b hb => hcons a (by simp [ha]) b (by simp [hb])
    by_cases hc : fs.fileChecksum ∈ seenC
    · have hh : fs.snippetsHash ∈ seenH := hlink fs (by simp) hc
      simp only [dupCountAux, if_pos hc, if_pos hh]
      have := ih seenC seenH (fun g hg => hlink g (by simp [hg])) hconsr
      omega
    · simp only [dupCountAux, if_neg hc]
      by_cases hh : fs.snippetsHash ∈ seenH
      · rw [if_pos hh]
        have hstep := ih (fs.fileChecksum :: seenC) seenH (by
          intro g hg hgc
          rcases List.mem_cons.mp hgc with heq | hmem
          · have hgh := hcons g (by simp [hg]) fs (by simp) heq
            rw [hgh]
            exact hh
          · exact hlink g (by simp [hg]) hmem) hconsr
        omega
      · rw [if_neg hh]
        exact ih (fs.fileChecksum :: seenC) (fs.snippetsHash :: seenH) (by
          intro g hg hgc
          rcases List.mem_cons.mp hgc with heq | hmem
          · have hgh := hcons g (by simp [hg]) fs (by simp) heq
            rw [hgh]
            exact List.mem_cons_self _ _
          · exact List.mem_cons_of_mem _ (hlink g (by simp [hg]) hmem)) hconsr

/-- C4 (amended): when sites with equal file checksums always carry equal
matched-line hashes — as when the backend checksum determines the file
content and hence the matched lines — `rcDupMatches ≥ rcDupFiles`; without
that consistency assumption the inequality is not enforced by the code. -/
theorem groupSites_dup_counters (l : List fileSites)
    (hcons : ∀ a ∈ l, ∀ b ∈ l, a.fileChecksum = b.fileChecksum →
      a.snippetsHash = b.snippetsHash) :
    (groupSites l).fileDupCnt ≤ (groupSites l).matchDupCnt := by
  rw [groupSites_eq l]
  exact dupCountAux_le_of_consistent l [] []
    (fun fs _ h => absurd h (by simp)) hcons

/-- Concrete instance of amended C4 with its hypothesis discharged. -/
theorem groupSites_dup_counters_witness :
    (groupSites [exDupA, exDupC]).fileDupCnt ≤
      (groupSites [exDupA, exDupC]).matchDupCnt :=
  groupSites_dup_counters [exDupA, exDupC] (by decide)

end ZoektUnderhood
